import Mathlib

/-
Verification of the LightGCN recommender implementation (single notebook
source) against its natural-language specification.

The development shallowly embeds the relevant source functions:
* `EarlyStopping` — the convergence controller class (source cell 12);
* `num_batches` / `train_one_epoch_avg` — the per-epoch loss aggregation of
  `train_one_epoch` (source cell 18);
* the graph builder `build_adj_matrix` (source cell 8);
* the propagation engine `getEmbedding` / `forward` (source cell 8);
* the BPR objective `bpr_loss` (source cell 10);
* the evaluator `evaluate_model` with its per-user metrics (source cell 14).

Machine floats are embedded as exact rationals; values that are irrational in
the source (inverse square roots, softplus, log-discounts) are handled either
by working with squares of the quantities (graph normalization) or by
abstracting the scalar function as a parameter (softplus, NDCG discount),
since no claim depends on their numeric values.
-/

set_option maxHeartbeats 1000000

namespace LightGCNSpec

/-! ## Convergence Controller (`EarlyStopping`, source cell 12)

The Python class keeps `patience`, `delta`, `best_score` (initially `None`),
`counter` and `early_stop` (initially `False`).  Its `__call__` body is,
verbatim: if `best_score is None or current_score > best_score + delta` then
set the new best and reset the counter, else increment the counter.  Nothing
else happens in `__call__`: in particular `early_stop` is never written and
`patience` is never read there. -/

structure EarlyStopping where
  patience : ℕ
  delta : ℚ
  best_score : Option ℚ
  counter : ℕ
  early_stop : Bool
deriving DecidableEq

/-- Constructor state: `best_score = None`, `counter = 0`, `early_stop = False`. -/
def EarlyStopping.init (patience : ℕ) (delta : ℚ) : EarlyStopping :=
  { patience := patience, delta := delta, best_score := none, counter := 0,
    early_stop := false }

/-- One `__call__(current_score)` step, translated from the source body. -/
def EarlyStopping.call (s : EarlyStopping) (current_score : ℚ) : EarlyStopping :=
  match s.best_score with
  | none => { s with best_score := some current_score, counter := 0 }
  | some b =>
      if b + s.delta < current_score then
        { s with best_score := some current_score, counter := 0 }
      else
        { s with counter := s.counter + 1 }

/-- Feeding a whole score sequence to the controller, one call per epoch, as
`train_lightgcn` does. -/
def EarlyStopping.run (s : EarlyStopping) (scores : List ℚ) : EarlyStopping :=
  scores.foldl EarlyStopping.call s

/-! ## Trainer loss aggregation (`train_one_epoch`, source cell 18)

The loop `for start in range(0, N, batch_size)` runs `⌈N/B⌉` times and adds
one `loss.item()` per iteration to `total_loss`; the function returns
`total_loss / num_batches` where the source computes
`num_batches = len(users_tensor) // batch_size + 1`.  The per-batch loss
values are abstracted as a sequence `lossOf : ℕ → ℚ` (the claim is about the
aggregation, not about the loss values themselves). -/

/-- Source line: `num_batches = len(users_tensor) // batch_size + 1`. -/
def num_batches (N batch_size : ℕ) : ℕ := N / batch_size + 1

/-- Number of iterations of `for start in range(0, N, batch_size)`:
`⌈N/B⌉ = (N + B - 1) / B` for `B > 0` (and `0` for `N = 0`). -/
def loopBatchCount (N batch_size : ℕ) : ℕ := (N + batch_size - 1) / batch_size

/-- The value returned by `train_one_epoch`: the per-batch losses accumulated
over the actual loop iterations, divided by the source's `num_batches`. -/
def train_one_epoch_avg (lossOf : ℕ → ℚ) (N batch_size : ℕ) : ℚ :=
  (∑ i ∈ Finset.range (loopBatchCount N batch_size), lossOf i) /
    (num_batches N batch_size : ℚ)

/-! ## Graph Builder (`build_adj_matrix`, source cell 8)

The source builds `R = coo_matrix(ones, (users, items + num_users))` of shape
`(U+I, U+I)`, forms `adj = R + R.T`, computes `rowsum = adj.sum(1)`,
`d_inv_sqrt = (rowsum + 1e-8) ** -0.5`, and returns
`diag(d_inv_sqrt) @ adj @ diag(d_inv_sqrt)`.

Interactions come from a dict of sets, so the pair list is duplicate-free: we
embed it as a `Finset (ℕ × ℕ)` of (user, item) pairs.  The inverse square
roots are irrational, so the normalized matrix is represented through the
SQUARES of its entries (`normAdjSq`): every entry of the real matrix is the
nonnegative number `d_inv_sqrt a * adj a b * d_inv_sqrt b`, hence is uniquely
determined by its square, and two nonnegative entries are equal exactly when
their squares are. -/

/-- Index wellformedness of the interaction pairs: user ids below `U` and item
ids below `I` (any other index would make the `coo_matrix` construction of the
source raise). -/
def pairsWF (pairs : Finset (ℕ × ℕ)) (U I : ℕ) : Prop :=
  ∀ p ∈ pairs, p.1 < U ∧ p.2 < I

instance (pairs : Finset (ℕ × ℕ)) (U I : ℕ) : Decidable (pairsWF pairs U I) :=
  Finset.decidableDforallFinset

/-- Entry `(a, b)` of the incidence matrix `R`: one edge per interaction
`(user, item)`, with the item column offset by `U`. -/
def rEntry (pairs : Finset (ℕ × ℕ)) (U : ℕ) (a b : ℕ) : ℚ :=
  if a < U ∧ U ≤ b ∧ (a, b - U) ∈ pairs then 1 else 0

/-- Entry `(a, b)` of the symmetric unnormalized matrix `adj = R + R.T`. -/
def adjEntry (pairs : Finset (ℕ × ℕ)) (U : ℕ) (a b : ℕ) : ℚ :=
  rEntry pairs U a b + rEntry pairs U b a

/-- Source line: `rowsum = np.array(adj.sum(1)).flatten()` — the degree of
node `a` (rows are summed over the full node range `numNodes = U + I`). -/
def rowsum (pairs : Finset (ℕ × ℕ)) (U numNodes : ℕ) (a : ℕ) : ℚ :=
  ∑ b ∈ Finset.range numNodes, adjEntry pairs U a b

/-- The additive epsilon `1e-8` of `d_inv_sqrt = (rowsum + 1e-8) ** -0.5`. -/
def adjEps : ℚ := 1 / 100000000

/-- Square of `d_inv_sqrt[a] = (rowsum[a] + 1e-8) ** -0.5`. -/
def dInvSqrtSq (pairs : Finset (ℕ × ℕ)) (U numNodes a : ℕ) : ℚ :=
  1 / (rowsum pairs U numNodes a + adjEps)

/-- Square of the entry `(a, b)` of the returned normalized matrix
`diag(d_inv_sqrt) @ adj @ diag(d_inv_sqrt)`, whose `(a,b)` entry is
`d_inv_sqrt a * adj a b * d_inv_sqrt b`. -/
def normAdjSq (pairs : Finset (ℕ × ℕ)) (U numNodes : ℕ) (a b : ℕ) : ℚ :=
  dInvSqrtSq pairs U numNodes a * (adjEntry pairs U a b) ^ 2 *
    dInvSqrtSq pairs U numNodes b

/-- Number of distinct interaction edges touching node `a` (as a user when
`a < U`, as the item `a - U` otherwise). -/
def edgesTouching (pairs : Finset (ℕ × ℕ)) (U a : ℕ) : ℕ :=
  (pairs.filter (fun p => p.1 = a ∨ U + p.2 = a)).card

/-! ## Propagation Engine (`getEmbedding` / `forward`, source cell 8)

Embedding tables are embedded as functions row/column → value; the normalized
adjacency likewise (only its values matter to these claims).  `getEmbedding`
concatenates the layer-0 tables, left-multiplies by the adjacency
`num_layers` times, stacks the `num_layers + 1` per-layer matrices along
dimension 1 and takes `torch.mean(embs, dim=1)`; `forward` performs the same
loop but stacks along dimension 0 and takes `.mean(0)`.  Both then split the
combined matrix at row `num_users`. -/

structure ModelState where
  num_users : ℕ
  num_items : ℕ
  embedding_dim : ℕ
  num_layers : ℕ
  userW : ℕ → ℕ → ℚ
  itemW : ℕ → ℕ → ℚ
  norm_adj : ℕ → ℕ → ℚ

/-- `torch.cat([user_embedding.weight, item_embedding.weight])`: rows `< U`
come from the user table, rows `≥ U` from the item table. -/
def catEmb (m : ModelState) (a d : ℕ) : ℚ :=
  if a < m.num_users then m.userW a d else m.itemW (a - m.num_users) d

/-- `torch.sparse.mm(adj, emb)` over the `(U+I)`-node index space. -/
def sparse_mm (adj : ℕ → ℕ → ℚ) (numNodes : ℕ) (e : ℕ → ℕ → ℚ)
    (a d : ℕ) : ℚ :=
  ∑ b ∈ Finset.range numNodes, adj a b * e b d

/-- The layer-`l` embedding matrix: `l` applications of the adjacency to the
concatenated layer-0 matrix (the list `embs` holds `layerEmb m 0 .. L`). -/
def layerEmb (m : ModelState) : ℕ → ℕ → ℕ → ℚ
  | 0 => catEmb m
  | l + 1 => sparse_mm m.norm_adj (m.num_users + m.num_items) (layerEmb m l)

/-- `torch.stack(embs, dim=1)`: index order (node, layer, dim). -/
def stackDim1 (m : ModelState) (a l d : ℕ) : ℚ := layerEmb m l a d

/-- `torch.mean(·, dim=1)` of a 3-tensor indexed (node, layer, dim), with
`count` entries along dimension 1. -/
def meanDim1 (T : ℕ → ℕ → ℕ → ℚ) (count a d : ℕ) : ℚ :=
  (∑ l ∈ Finset.range count, T a l d) / (count : ℚ)

/-- `torch.stack(all_embs, dim=0)`: index order (layer, node, dim). -/
def stackDim0 (m : ModelState) (l a d : ℕ) : ℚ := layerEmb m l a d

/-- `.mean(0)` of a 3-tensor indexed (layer, node, dim), with `count` entries
along dimension 0. -/
def meanDim0 (T : ℕ → ℕ → ℕ → ℚ) (count a d : ℕ) : ℚ :=
  (∑ l ∈ Finset.range count, T l a d) / (count : ℚ)

/-- `getEmbedding`'s user output: row `u` of `light_out[:num_users]`. -/
def getEmbedding_user (m : ModelState) (u d : ℕ) : ℚ :=
  meanDim1 (stackDim1 m) (m.num_layers + 1) u d

/-- `getEmbedding`'s item output: row `i` of `light_out[num_users:]`. -/
def getEmbedding_item (m : ModelState) (i d : ℕ) : ℚ :=
  meanDim1 (stackDim1 m) (m.num_layers + 1) (m.num_users + i) d

/-- `forward`'s user output: row `u` of `final_emb[:num_users]`. -/
def forward_user (m : ModelState) (u d : ℕ) : ℚ :=
  meanDim0 (stackDim0 m) (m.num_layers + 1) u d

/-- `forward`'s item output: row `i` of `final_emb[num_users:]`. -/
def forward_item (m : ModelState) (i d : ℕ) : ℚ :=
  meanDim0 (stackDim0 m) (m.num_layers + 1) (m.num_users + i) d

/-! ## Ranking Objective (`bpr_loss`, source cell 10)

`bpr_loss` takes batches of user/positive/negative ids, scores them with the
propagated embeddings, averages `softplus(neg - pos)` over the batch and adds
`reg_lambda * (|u0|^2 + |p0|^2 + |n0|^2) / batch_size` computed on the
layer-0 embeddings.  `softplus(x) = log(1 + e^x)` is transcendental and its
values are irrelevant to the claims, so it is abstracted as a parameter
`sp : ℚ → ℚ`.

On an empty batch the source reaches `torch.mean` of an empty tensor (`NaN`)
and divides the regularizer by `users.shape[0] = 0`; there is no guard and no
exception.  The outcome type below represents that undefined float result as
`nanDivZero`.  The constructor `emptyBatchError` expresses the spec's §7
error taxonomy so that the claim can be stated; the source model never
produces it (no such exception exists anywhere in the source). -/

inductive BprResult where
  | value : ℚ → BprResult
  | emptyBatchError : BprResult
  | nanDivZero : BprResult
deriving DecidableEq

/-- The value computed by `bpr_loss(model, users, pos_items, neg_items)`. -/
def bpr_loss (sp : ℚ → ℚ) (reg_lambda : ℚ) (m : ModelState)
    (users pos_items neg_items : List ℕ) : BprResult :=
  if users.length = 0 then BprResult.nanDivZero
  else
    let n : ℚ := users.length
    let posScore : ℕ → ℚ := fun s => ∑ d ∈ Finset.range m.embedding_dim,
      getEmbedding_user m (users.getD s 0) d *
        getEmbedding_item m (pos_items.getD s 0) d
    let negScore : ℕ → ℚ := fun s => ∑ d ∈ Finset.range m.embedding_dim,
      getEmbedding_user m (users.getD s 0) d *
        getEmbedding_item m (neg_items.getD s 0) d
    let loss := (∑ s ∈ Finset.range users.length,
      sp (negScore s - posScore s)) / n
    let regU := ∑ s ∈ Finset.range users.length,
      ∑ d ∈ Finset.range m.embedding_dim, (m.userW (users.getD s 0) d) ^ 2
    let regP := ∑ s ∈ Finset.range pos_items.length,
      ∑ d ∈ Finset.range m.embedding_dim, (m.itemW (pos_items.getD s 0) d) ^ 2
    let regN := ∑ s ∈ Finset.range neg_items.length,
      ∑ d ∈ Finset.range m.embedding_dim, (m.itemW (neg_items.getD s 0) d) ^ 2
    BprResult.value (loss + reg_lambda * (regU + regP + regN) / n)

/-- A tiny concrete model state (one user, one item, dimension 1, zero
layers) used by witnesses. -/
def exModel : ModelState :=
  { num_users := 1, num_items := 1, embedding_dim := 1, num_layers := 0,
    userW := fun _ _ => 3, itemW := fun _ _ => 5, norm_adj := fun _ _ => 7 }

/-! ## Evaluator (`evaluate_model` with its metrics, source cell 14)

The evaluator takes the final embeddings `user_emb, item_emb = model()`
(fixed for the whole call), walks `test_users` in slices
`test_users[i:i+batch_size]` for `i in range(0, len(test_users), batch_size)`,
and for each user builds the candidate list
`list((set(range(num_items)) - train_items) | set(gt_items))`, scores it by a
dot product, ranks by `torch.topk`, and computes Recall/Precision/NDCG@K;
it returns the arithmetic means of the three per-user lists.

Modelling notes, all irrelevant to the claims:
* Python's set-to-list iteration order is implementation-defined (but fixed
  for a given run); the embedding fixes ascending order.
* `torch.topk(scores, k).indices` returns positions in descending score
  order, ties resolved toward the earlier position; this is realized by a
  stable insertion sort on (candidate, score) pairs followed by `take k`.
* the NDCG discount `1 / log2(i + 2)` is irrational, so the discount
  sequence is abstracted as a parameter `disc : ℕ → ℚ`;
* ground-truth item lists are embedded as the `Finset` of their elements
  (the source wraps them in `set(...)` wherever they are consumed). -/

structure EvalEmb where
  embedding_dim : ℕ
  userEmb : ℕ → ℕ → ℚ
  itemEmb : ℕ → ℕ → ℚ

/-- `(set(range(model.num_items)) - train_items) | set(gt_items)`. -/
def candidateSet (num_items : ℕ) (train_items gt_items : Finset ℕ) :
    Finset ℕ :=
  (Finset.range num_items \ train_items) ∪ gt_items

/-- `candidates = list(...)`, with the set's iteration order fixed to
ascending. -/
def candidatesList (num_items : ℕ) (train_items gt_items : Finset ℕ) :
    List ℕ :=
  (candidateSet num_items train_items gt_items).sort (· ≤ ·)

/-- Dot product of a user's final embedding with a candidate item's final
embedding: `torch.matmul(batch_user_emb[idx], item_emb[candidates].T)`. -/
def score (e : EvalEmb) (u c : ℕ) : ℚ :=
  ∑ d ∈ Finset.range e.embedding_dim, e.userEmb u d * e.itemEmb c d

/-- Stable descending insertion of a (candidate, score) pair: the new pair
goes after any earlier pair of greater-or-equal score. -/
def insertDesc (p : ℕ × ℚ) : List (ℕ × ℚ) → List (ℕ × ℚ)
  | [] => [p]
  | q :: rest => if q.2 < p.2 then p :: q :: rest else q :: insertDesc p rest

/-- Stable descending sort by score. -/
def sortDesc : List (ℕ × ℚ) → List (ℕ × ℚ)
  | [] => []
  | p :: rest => insertDesc p (sortDesc rest)

/-- `ranked_items = [candidates[i] for i in torch.topk(scores, k).indices]`. -/
def rankedList (e : EvalEmb) (k num_items : ℕ)
    (train_items gt_items : Finset ℕ) (u : ℕ) : List ℕ :=
  ((sortDesc ((candidatesList num_items train_items gt_items).map
      (fun c => (c, score e u c)))).take k).map Prod.fst

/-- `recall_at_k`: `len(set(ranked_list[:k]) & set(ground_truth)) /
len(set(ground_truth))`. -/
def recall_at_k (ranked : List ℕ) (ground_truth : Finset ℕ) (k : ℕ) : ℚ :=
  (((ranked.take k).toFinset ∩ ground_truth).card : ℚ) /
    (ground_truth.card : ℚ)

/-- `precision_at_k`: same intersection divided by `k`. -/
def precision_at_k (ranked : List ℕ) (ground_truth : Finset ℕ) (k : ℕ) : ℚ :=
  (((ranked.take k).toFinset ∩ ground_truth).card : ℚ) / (k : ℚ)

/-- `dcg`: sum of `disc i` over positions `i` of `ranked_list[:k]` holding a
ground-truth item (source discount: `1 / np.log2(i + 2)`). -/
def dcg (disc : ℕ → ℚ) (ranked : List ℕ) (ground_truth : Finset ℕ)
    (k : ℕ) : ℚ :=
  ∑ i ∈ Finset.range (ranked.take k).length,
    if (ranked.take k).getD i 0 ∈ ground_truth then disc i else 0

/-- `idcg`: sum of `disc i` for `i in range(min(len(ground_truth), k))`. -/
def idcg (disc : ℕ → ℚ) (ground_truth : Finset ℕ) (k : ℕ) : ℚ :=
  ∑ i ∈ Finset.range (min ground_truth.card k), disc i

/-- `ndcg_at_k`: `dcg / idcg if idcg > 0 else 0.0`. -/
def ndcg_at_k (disc : ℕ → ℚ) (ranked : List ℕ) (ground_truth : Finset ℕ)
    (k : ℕ) : ℚ :=
  if 0 < idcg disc ground_truth k then
    dcg disc ranked ground_truth k / idcg disc ground_truth k
  else 0

/-- Fixed per-call context of `evaluate_model`: final embeddings, discount,
item count, per-user training interactions and ground truth, and `k`. -/
structure EvalInput where
  emb : EvalEmb
  disc : ℕ → ℚ
  num_items : ℕ
  trainOf : ℕ → Finset ℕ
  gtOf : ℕ → Finset ℕ
  k : ℕ

/-- The per-user metric triple computed in the inner loop.  The source reads
the user's row of the batch slice (`batch_user_emb[idx]`), which equals
`user_emb[user]`, so the computation depends only on the user id. -/
def userMetrics (inp : EvalInput) (u : ℕ) : ℚ × ℚ × ℚ :=
  (recall_at_k (rankedList inp.emb inp.k inp.num_items (inp.trainOf u)
      (inp.gtOf u) u) (inp.gtOf u) inp.k,
   precision_at_k (rankedList inp.emb inp.k inp.num_items (inp.trainOf u)
      (inp.gtOf u) u) (inp.gtOf u) inp.k,
   ndcg_at_k inp.disc (rankedList inp.emb inp.k inp.num_items (inp.trainOf u)
      (inp.gtOf u) u) (inp.gtOf u) inp.k)

/-- The slice start offsets `range(0, n, b)` of the evaluation loop. -/
def batchStarts (n b : ℕ) : List ℕ :=
  (List.range (loopBatchCount n b)).map (· * b)

/-- The user batches `test_users[i:i+batch_size]`. -/
def evalBatches (b : ℕ) (l : List ℕ) : List (List ℕ) :=
  (batchStarts l.length b).map (fun i => (l.drop i).take b)

/-- One batch's appended per-user results
(`for idx, user in enumerate(batch_users)`). -/
def batchResults (inp : EvalInput) (batch : List ℕ) : List (ℚ × ℚ × ℚ) :=
  (List.range batch.length).map (fun idx => userMetrics inp (batch.getD idx 0))

/-- The concatenation of all batches' per-user results, in iteration order. -/
def allResults (inp : EvalInput) (b : ℕ) (test_users : List ℕ) :
    List (ℚ × ℚ × ℚ) :=
  ((evalBatches b test_users).map (batchResults inp)).flatten

/-- `np.mean` of a list of floats. -/
def listMean (l : List ℚ) : ℚ := l.sum / (l.length : ℚ)

/-- The aggregate `(recall, precision, ndcg)` triple returned by
`evaluate_model`. -/
def evaluate_model (inp : EvalInput) (b : ℕ) (test_users : List ℕ) :
    ℚ × ℚ × ℚ :=
  (listMean ((allResults inp b test_users).map (fun r => r.1)),
   listMean ((allResults inp b test_users).map (fun r => r.2.1)),
   listMean ((allResults inp b test_users).map (fun r => r.2.2)))

/-- A tiny concrete evaluation context used by witnesses. -/
def exEval : EvalInput :=
  { emb := { embedding_dim := 1, userEmb := fun u _ => (u : ℚ) + 1,
             itemEmb := fun c _ => (c : ℚ) + 2 },
    disc := fun i => 1 / ((i : ℚ) + 1),
    num_items := 2,
    trainOf := fun _ => {0},
    gtOf := fun _ => {1},
    k := 1 }

end LightGCNSpec

namespace LightGCNSpec

/-! ## Helper lemmas -/

lemma rEntry_nonneg (pairs : Finset (ℕ × ℕ)) (U a b : ℕ) :
    0 ≤ rEntry pairs U a b := by
  unfold rEntry; split <;> norm_num

lemma adjEntry_nonneg (pairs : Finset (ℕ × ℕ)) (U a b : ℕ) :
    0 ≤ adjEntry pairs U a b :=
  add_nonneg (rEntry_nonneg pairs U a b) (rEntry_nonneg pairs U b a)

lemma adjEntry_comm (pairs : Finset (ℕ × ℕ)) (U a b : ℕ) :
    adjEntry pairs U a b = adjEntry pairs U b a :=
  add_comm _ _

/-- Out-of-range columns carry no edge (given wellformed pairs). -/
lemma adjEntry_eq_zero_of_ge (pairs : Finset (ℕ × ℕ)) (U I : ℕ)
    (wf : pairsWF pairs U I) (a b : ℕ) (hb : U + I ≤ b) :
    adjEntry pairs U a b = 0 := by
  unfold adjEntry rEntry
  rw [if_neg, if_neg, add_zero]
  · rintro ⟨hbU, hUa, hmem⟩
    have := (wf _ hmem).1
    omega
  · rintro ⟨haU, hUb, hmem⟩
    have := (wf _ hmem).2
    omega

/-- An isolated node (`rowsum = 0`) has no incident edges anywhere. -/
lemma adjEntry_eq_zero_of_rowsum (pairs : Finset (ℕ × ℕ)) (U I : ℕ)
    (wf : pairsWF pairs U I) (a : ℕ) (h0 : rowsum pairs U (U + I) a = 0)
    (b : ℕ) : adjEntry pairs U a b = 0 := by
  by_cases hb : b < U + I
  · have := (Finset.sum_eq_zero_iff_of_nonneg
      (fun c _ => adjEntry_nonneg pairs U a c)).mp h0
    exact this b (Finset.mem_range.mpr hb)
  · exact adjEntry_eq_zero_of_ge pairs U I wf a b (by omega)

/-- The contribution of the `R` part of a row equals the number of
interactions with the node as user. -/
lemma sum_rEntry_row (pairs : Finset (ℕ × ℕ)) (U I : ℕ)
    (wf : pairsWF pairs U I) (a : ℕ) :
    ∑ b ∈ Finset.range (U + I), rEntry pairs U a b =
      ((pairs.filter (fun p => p.1 = a)).card : ℚ) := by
  unfold rEntry
  rw [Finset.sum_boole]
  congr 1
  by_cases ha : a < U
  · refine Finset.card_nbij' (fun b => (a, b - U)) (fun p => U + p.2) ?_ ?_ ?_ ?_
    · intro b hb
      simp only [Finset.mem_filter, Finset.mem_range] at hb
      simp only [Finset.mem_filter]
      exact ⟨hb.2.2.2, by trivial⟩
    · intro p hp
      simp only [Finset.mem_filter] at hp
      have hw := wf _ hp.1
      simp only [Finset.mem_filter, Finset.mem_range]
      refine ⟨by omega, ha, by omega, ?_⟩
      have hpe : (a, U + p.2 - U) = p := by
        rcases p with ⟨p1, p2⟩
        simp only at hp
        simp only [Prod.mk.injEq]
        refine ⟨?_, ?_⟩
        · exact hp.2.symm
        · omega
      rw [hpe]; exact hp.1
    · intro b hb
      simp only [Finset.mem_filter, Finset.mem_range] at hb
      show U + (b - U) = b
      omega
    · intro p hp
      simp only [Finset.mem_filter] at hp
      rcases p with ⟨p1, p2⟩
      simp only at hp
      show (a, U + p2 - U) = (p1, p2)
      simp only [Prod.mk.injEq]
      refine ⟨?_, ?_⟩
      · exact hp.2.symm
      · omega
  · have h1 : ∀ b ∈ Finset.range (U + I), ¬(a < U ∧ U ≤ b ∧ (a, b - U) ∈ pairs) := by
      rintro b _ ⟨h, _, _⟩
      exact ha h
    have h2 : ∀ p ∈ pairs, ¬(p.1 = a) := by
      intro p hp hpa
      exact ha (hpa ▸ (wf _ hp).1)
    rw [Finset.filter_false_of_mem h1, Finset.filter_false_of_mem h2]
    rfl

/-- The contribution of the `R.T` part of a row equals the number of
interactions with the node as item. -/
lemma sum_rEntry_col (pairs : Finset (ℕ × ℕ)) (U I : ℕ)
    (wf : pairsWF pairs U I) (a : ℕ) :
    ∑ b ∈ Finset.range (U + I), rEntry pairs U b a =
      ((pairs.filter (fun p => U + p.2 = a)).card : ℚ) := by
  unfold rEntry
  rw [Finset.sum_boole]
  congr 1
  by_cases ha : U ≤ a
  · refine Finset.card_nbij' (fun b => (b, a - U)) (fun p => p.1) ?_ ?_ ?_ ?_
    · intro b hb
      simp only [Finset.mem_filter, Finset.mem_range] at hb
      simp only [Finset.mem_filter]
      refine ⟨hb.2.2.2, ?_⟩
      show U + (a - U) = a
      omega
    · intro p hp
      simp only [Finset.mem_filter] at hp
      have hw := wf _ hp.1
      simp only [Finset.mem_filter, Finset.mem_range]
      refine ⟨by omega, hw.1, ha, ?_⟩
      have hpe : (p.1, a - U) = p := by
        rcases p with ⟨p1, p2⟩
        simp only at hp
        show (p1, a - U) = (p1, p2)
        simp only [Prod.mk.injEq]
        refine ⟨by trivial, ?_⟩
        omega
      rw [hpe]; exact hp.1
    · intro b hb
      rfl
    · intro p hp
      simp only [Finset.mem_filter] at hp
      rcases p with ⟨p1, p2⟩
      simp only at hp
      show (p1, a - U) = (p1, p2)
      simp only [Prod.mk.injEq]
      refine ⟨by trivial, ?_⟩
      omega
  · have h1 : ∀ b ∈ Finset.range (U + I), ¬(b < U ∧ U ≤ a ∧ (b, a - U) ∈ pairs) := by
      rintro b _ ⟨_, h, _⟩
      exact ha h
    have h2 : ∀ p ∈ pairs, ¬(U + p.2 = a) := by
      intro p hp hpa
      omega
    rw [Finset.filter_false_of_mem h1, Finset.filter_false_of_mem h2]
    rfl

/-- Row sums of `adj` count incident edges, once each. -/
lemma rowsum_eq_edgesTouching (pairs : Finset (ℕ × ℕ)) (U I : ℕ)
    (wf : pairsWF pairs U I) (a : ℕ) :
    rowsum pairs U (U + I) a = (edgesTouching pairs U a : ℚ) := by
  unfold rowsum adjEntry edgesTouching
  rw [Finset.sum_add_distrib, sum_rEntry_row pairs U I wf a,
    sum_rEntry_col pairs U I wf a]
  rw [Finset.filter_or, Finset.card_union_of_disjoint]
  · push_cast
    ring
  · rw [Finset.disjoint_filter]
    intro p hp h1 h2
    have := (wf _ hp).1
    omega

/-! ### Concrete one-interaction graph (`U = 1`, `I = 1`, single pair (0,0)) -/

lemma adjEntry_ex_00 : adjEntry {(0, 0)} 1 0 0 = 0 := by
  norm_num [adjEntry, rEntry]

lemma adjEntry_ex_01 : adjEntry {(0, 0)} 1 0 1 = 1 := by
  norm_num [adjEntry, rEntry, Finset.mem_singleton, Prod.mk.injEq]

lemma adjEntry_ex_10 : adjEntry {(0, 0)} 1 1 0 = 1 := by
  norm_num [adjEntry, rEntry, Finset.mem_singleton, Prod.mk.injEq]

lemma adjEntry_ex_11 : adjEntry {(0, 0)} 1 1 1 = 0 := by
  norm_num [adjEntry, rEntry]

lemma rowsum_ex_0 : rowsum {(0, 0)} 1 2 0 = 1 := by
  rw [rowsum, Finset.sum_range_succ, Finset.sum_range_one,
    adjEntry_ex_00, adjEntry_ex_01]
  norm_num

lemma rowsum_ex_1 : rowsum {(0, 0)} 1 2 1 = 1 := by
  rw [rowsum, Finset.sum_range_succ, Finset.sum_range_one,
    adjEntry_ex_10, adjEntry_ex_11]
  norm_num

/-! ### Evaluator batching lemmas -/

/-- Iterating `enumerate` over a batch and indexing back into it is the same
as mapping over the batch. -/
lemma range_map_getD {β : Type} (f : ℕ → β) :
    ∀ l : List ℕ,
      (List.range l.length).map (fun idx => f (l.getD idx 0)) = l.map f := by
  intro l
  induction l with
  | nil => rfl
  | cons x xs ih =>
      rw [List.length_cons, List.range_succ_eq_map, List.map_cons,
        List.map_map]
      have hfun : ((fun idx => f ((x :: xs).getD idx 0)) ∘ Nat.succ)
          = fun idx => f (xs.getD idx 0) := by
        funext idx
        rfl
      rw [hfun, ih]
      rfl

lemma batchResults_eq_map (inp : EvalInput) (batch : List ℕ) :
    batchResults inp batch = batch.map (userMetrics inp) := by
  unfold batchResults
  exact range_map_getD (userMetrics inp) batch

/-- The strided slices `l[i:i+b]` for `i in range(0, len(l), b)` concatenate
back to `l` (for positive stride `b`). -/
lemma flatten_evalBatches (b : ℕ) (hb : 0 < b) :
    ∀ (m : ℕ) (l : List ℕ), loopBatchCount l.length b = m →
      (evalBatches b l).flatten = l := by
  intro m
  induction m with
  | zero =>
      intro l hm
      have hl : l.length = 0 := by
        unfold loopBatchCount at hm
        have := (Nat.div_eq_zero_iff hb).mp hm
        omega
      have hl' : l = [] := List.length_eq_zero.mp hl
      subst hl'
      have h0 : loopBatchCount 0 b = 0 := Nat.div_eq_of_lt (by omega)
      unfold evalBatches batchStarts
      rw [List.length_nil, h0]
      rfl
  | succ m ih =>
      intro l hm
      have hn : 1 ≤ l.length := by
        by_contra hc
        have hl : l.length = 0 := by omega
        rw [hl] at hm
        have h0 : loopBatchCount 0 b = 0 := Nat.div_eq_of_lt (by omega)
        omega
      have harr : loopBatchCount (l.drop b).length b = m := by
        rw [List.length_drop]
        unfold loopBatchCount at hm ⊢
        by_cases hnb : l.length ≤ b
        · have h1 : l.length - b = 0 := by omega
          rw [h1]
          have h2 : (0 + b - 1) / b = 0 := Nat.div_eq_of_lt (by omega)
          have h3 : l.length + b - 1 = (l.length - 1) + b := by omega
          rw [h3, Nat.add_div_right _ hb] at hm
          have h4 : (l.length - 1) / b = 0 := Nat.div_eq_of_lt (by omega)
          omega
        · have h3 : l.length + b - 1 = (l.length - 1) + b := by omega
          rw [h3, Nat.add_div_right _ hb] at hm
          have h5 : l.length - b + b - 1 = (l.length - b - 1) + b := by omega
          rw [h5, Nat.add_div_right _ hb]
          have h6 : l.length - 1 = (l.length - b - 1) + b := by omega
          rw [h6, Nat.add_div_right _ hb] at hm
          omega
      have hrw : evalBatches b l = l.take b :: evalBatches b (l.drop b) := by
        unfold evalBatches batchStarts
        rw [hm, harr, List.range_succ_eq_map, List.map_cons, List.map_cons,
          List.map_map, List.map_map, List.map_map]
        congr 1
        · show (l.drop (0 * b)).take b = l.take b
          rw [Nat.zero_mul, List.drop_zero]
        · apply List.map_congr_left
          intro j _
          show (l.drop (Nat.succ j * b)).take b
              = ((l.drop b).drop (j * b)).take b
          rw [List.drop_drop]
          have harg : Nat.succ j * b = b + j * b := by
            rw [Nat.succ_mul, Nat.add_comm]
          rw [harg]
      rw [hrw, List.flatten_cons, ih (l.drop b) harr, List.take_append_drop]

/-- For any positive batch size, the concatenated per-user results are the
per-user results of the user list in order. -/
lemma allResults_eq (inp : EvalInput) (b : ℕ) (hb : 0 < b) (l : List ℕ) :
    allResults inp b l = l.map (userMetrics inp) := by
  unfold allResults
  have h1 : (evalBatches b l).map (batchResults inp)
      = (evalBatches b l).map (List.map (userMetrics inp)) := by
    apply List.map_congr_left
    intro batch _
    exact batchResults_eq_map inp batch
  rw [h1, ← List.map_flatten, flatten_evalBatches b hb _ l rfl]

/-! ## Theorems -/

/-- C1: the spec requires the controller to transition to the terminal
`STOPPED` state exactly when the strike counter reaches `patience`, and in
particular to signal stop at the 3rd observation of `[0.1, 0.1, 0.1]` with
`patience = 2`, `delta = 0`.  The source's `__call__` updates `best_score` and
`counter` as specified but never sets `early_stop`: the flag keeps its initial
value after any sequence of observations, and on the cited input the counter
does reach `2` while `early_stop` is still `false`.  This contradicts the
class's own declared `patience`/`early_stop` fields and the trainer's
`if early_stopping.early_stop: break` check, which is unreachable. -/
theorem earlyStopping_never_signals_stop :
    (∀ (s : EarlyStopping) (scores : List ℚ),
        (EarlyStopping.run s scores).early_stop = s.early_stop) ∧
    (EarlyStopping.run (EarlyStopping.init 2 0) [1/10, 1/10, 1/10]).counter = 2 ∧
    (EarlyStopping.run (EarlyStopping.init 2 0) [1/10, 1/10, 1/10]).early_stop
      = false := by
  refine ⟨?_,
    by norm_num [EarlyStopping.run, EarlyStopping.call, EarlyStopping.init],
    by norm_num [EarlyStopping.run, EarlyStopping.call, EarlyStopping.init]⟩
  intro s scores
  induction scores generalizing s with
  | nil => rfl
  | cons x xs ih =>
      have hx : (EarlyStopping.call s x).early_stop = s.early_stop := by
        unfold EarlyStopping.call
        cases s.best_score with
        | none => rfl
        | some b => by_cases h : b + s.delta < x <;> simp [h]
      have hrun : EarlyStopping.run s (x :: xs)
          = EarlyStopping.run (EarlyStopping.call s x) xs := rfl
      rw [hrun, ih (EarlyStopping.call s x), hx]

/-- C2 counterexample: with `N = 2` triples and `batch_size = 2` and every
per-batch loss equal to `1`, the epoch routine returns `1/2` (it divides by
`num_batches = 2/2 + 1 = 2`) whereas the claim's value — the accumulated
losses divided by `⌈N/B⌉ = 1` — is `1`. -/
theorem train_avg_counterexample :
    train_one_epoch_avg (fun _ => 1) 2 2 ≠
      (∑ i ∈ Finset.range (loopBatchCount 2 2), (fun _ => (1 : ℚ)) i) /
        (loopBatchCount 2 2 : ℚ) := by
  norm_num [train_one_epoch_avg, num_batches, loopBatchCount,
    Finset.sum_range_one]

/-- C2 amended: `train_one_epoch` divides the accumulated per-batch losses by
`⌊N/B⌋ + 1`, which coincides with the claimed batch count `⌈N/B⌉` exactly when
the final batch is partial (`B ∤ N`); in that case the routine returns the
accumulated losses divided by `⌈N/B⌉` as claimed.  (When `B ∣ N` the divisor
exceeds the number of batches actually processed by one.) -/
theorem train_avg_eq_ceil_of_not_dvd (lossOf : ℕ → ℚ) (N B : ℕ)
    (hB : 0 < B) (hnd : ¬ B ∣ N) :
    train_one_epoch_avg lossOf N B =
      (∑ i ∈ Finset.range (loopBatchCount N B), lossOf i) /
        (loopBatchCount N B : ℚ) := by
  have hmod : N % B ≠ 0 := fun h0 => hnd (Nat.dvd_of_mod_eq_zero h0)
  have hq := Nat.div_add_mod N B
  have hr : N % B < B := Nat.mod_lt _ hB
  have h1 : 1 ≤ N % B := Nat.one_le_iff_ne_zero.mpr hmod
  have key : N + B - 1 = (N % B - 1) + (B * (N / B) + B) := by omega
  have key2 : (N % B - 1) + (B * (N / B) + B) = (N % B - 1) + B * (N / B + 1) := by
    ring
  have hceil : loopBatchCount N B = num_batches N B := by
    rw [loopBatchCount, key, key2, Nat.add_mul_div_left _ _ hB,
      Nat.div_eq_of_lt (by omega)]
    simp [num_batches]
  rw [train_one_epoch_avg, hceil]

/-- Witness for `train_avg_eq_ceil_of_not_dvd` at `N = 3`, `B = 2`,
constant per-batch loss `1`. -/
theorem train_avg_eq_ceil_witness :
    0 < 2 ∧ ¬ (2 ∣ 3) ∧
      train_one_epoch_avg (fun _ => 1) 3 2 =
        (∑ i ∈ Finset.range (loopBatchCount 3 2), (fun _ => (1 : ℚ)) i) /
          (loopBatchCount 3 2 : ℚ) :=
  ⟨by norm_num, by decide,
    train_avg_eq_ceil_of_not_dvd (fun _ => 1) 3 2 (by norm_num) (by decide)⟩

/-- C4 counterexample: on the one-interaction graph (`U = 1`, `I = 1`, single
pair `(0,0)`), both endpoints of the edge have degree `1`, so the claimed
entry value is `1/sqrt(1*1) = 1`; the actual entry is
`(1 + 1e-8) ** -0.5 * 1 * (1 + 1e-8) ** -0.5 = 1/(1+1e-8) < 1`.  Since the
entries are nonnegative, the values differ exactly when their squares do, and
here the claimed square is `1/(deg*deg) = 1` while the actual square
`normAdjSq` is `(10^8/(10^8+1))^2`. -/
theorem normAdj_value_counterexample :
    normAdjSq {(0, 0)} 1 2 0 1 ≠
      1 / (rowsum {(0, 0)} 1 2 0 * rowsum {(0, 0)} 1 2 1) := by
  unfold normAdjSq dInvSqrtSq
  rw [rowsum_ex_0, rowsum_ex_1, adjEntry_ex_01]
  norm_num [adjEps]

/-- C4 amended: the normalized adjacency is symmetric, and the entry at each
edge `(a, b)` equals `1/sqrt((deg a + 1e-8) * (deg b + 1e-8))` — i.e. the
epsilon of the source's `(rowsum + 1e-8) ** -0.5` appears inside the square
root, making each nonzero entry slightly smaller than the claimed
`1/sqrt(deg a * deg b)`.  Stated on squares of the (nonnegative) entries. -/
theorem normAdj_symmetric_edge_value (pairs : Finset (ℕ × ℕ))
    (U numNodes a b : ℕ) :
    normAdjSq pairs U numNodes a b = normAdjSq pairs U numNodes b a ∧
    (adjEntry pairs U a b = 1 →
      normAdjSq pairs U numNodes a b =
        1 / ((rowsum pairs U numNodes a + adjEps) *
          (rowsum pairs U numNodes b + adjEps))) := by
  constructor
  · unfold normAdjSq
    rw [adjEntry_comm]
    ring
  · intro h
    unfold normAdjSq dInvSqrtSq
    rw [h, one_pow, mul_one, div_mul_div_comm, one_mul]

/-- Witness for `normAdj_symmetric_edge_value` on the one-interaction graph:
the edge `(0, 1)` is present and its normalized entry has the amended value. -/
theorem normAdj_symmetric_edge_value_witness :
    adjEntry {(0, 0)} 1 0 1 = 1 ∧
      normAdjSq {(0, 0)} 1 2 0 1 =
        1 / ((rowsum {(0, 0)} 1 2 0 + adjEps) *
          (rowsum {(0, 0)} 1 2 1 + adjEps)) := by
  have h : adjEntry ({(0, 0)} : Finset (ℕ × ℕ)) 1 0 1 = 1 := by
    norm_num [adjEntry, rEntry, Finset.mem_singleton, Prod.mk.injEq]
  exact ⟨h, (normAdj_symmetric_edge_value {(0, 0)} 1 2 0 1).2 h⟩

/-- C5 counterexample: on the one-interaction graph (`U = 1`, `I = 1`, pair
`(0,0)`), node `0` has no self-loop, one incident edge, and row sum `1` in
`adj = R + R.T` — not `2`.  (Each undirected edge contributes `1` to the row
of each of its two endpoints; the factor two applies to the total matrix sum,
not to a row.) -/
theorem rowsum_not_twice_edges :
    rowsum {(0, 0)} 1 2 0 ≠ 2 * (edgesTouching {(0, 0)} 1 0 : ℚ) := by
  have he : edgesTouching ({(0, 0)} : Finset (ℕ × ℕ)) 1 0 = 1 := by decide
  rw [he, rowsum_ex_0]
  norm_num

/-- C5 amended: for every wellformed adjacency build, `adj = R + R.T` is
symmetric (`A[a,b] = A[b,a]`), and the row sum of every node (none has a
self-loop in a bipartite build) equals the number of distinct edges touching
that node — once, not twice. -/
theorem adj_symmetric_rowsum_eq_edges (pairs : Finset (ℕ × ℕ)) (U I a b : ℕ)
    (wf : pairsWF pairs U I) :
    adjEntry pairs U a b = adjEntry pairs U b a ∧
    rowsum pairs U (U + I) a = (edgesTouching pairs U a : ℚ) :=
  ⟨adjEntry_comm pairs U a b, rowsum_eq_edgesTouching pairs U I wf a⟩

/-- Witness for `adj_symmetric_rowsum_eq_edges` on the one-interaction graph. -/
theorem adj_symmetric_rowsum_eq_edges_witness :
    pairsWF {(0, 0)} 1 1 ∧
      rowsum {(0, 0)} 1 (1 + 1) 0 = (edgesTouching {(0, 0)} 1 0 : ℚ) :=
  ⟨by decide, (adj_symmetric_rowsum_eq_edges {(0, 0)} 1 1 0 0 (by decide)).2⟩

/-- C8: normalization never divides by zero (`rowsum + 1e-8` is strictly
positive for every node, isolated ones included, so `(rowsum + 1e-8) ** -0.5`
is a finite positive number — no `NaN`/`Inf`), and the normalized row and
column of a degree-0 node are identically zero. -/
theorem isolated_node_no_nan (pairs : Finset (ℕ × ℕ)) (U I a : ℕ)
    (wf : pairsWF pairs U I) :
    0 < rowsum pairs U (U + I) a + adjEps ∧
    (rowsum pairs U (U + I) a = 0 →
      ∀ b, normAdjSq pairs U (U + I) a b = 0 ∧
        normAdjSq pairs U (U + I) b a = 0) := by
  constructor
  · have h0 : 0 ≤ rowsum pairs U (U + I) a :=
      Finset.sum_nonneg fun c _ => adjEntry_nonneg pairs U a c
    have he : (0 : ℚ) < adjEps := by norm_num [adjEps]
    linarith
  · intro h0 b
    have hz := adjEntry_eq_zero_of_rowsum pairs U I wf a h0 b
    constructor
    · unfold normAdjSq
      rw [hz]
      ring
    · unfold normAdjSq
      rw [adjEntry_comm, hz]
      ring

/-- Witness for `isolated_node_no_nan`: `U = 1`, `I = 2`, single pair `(0,0)`;
node `2` (item `1`) is isolated, its denominator is still positive and its
normalized row entry at column `0` is zero. -/
theorem isolated_node_no_nan_witness :
    pairsWF {(0, 0)} 1 2 ∧ rowsum {(0, 0)} 1 (1 + 2) 2 = 0 ∧
      0 < rowsum {(0, 0)} 1 (1 + 2) 2 + adjEps ∧
      normAdjSq {(0, 0)} 1 (1 + 2) 2 0 = 0 := by
  have hwf : pairsWF ({(0, 0)} : Finset (ℕ × ℕ)) 1 2 := by decide
  have h0 : rowsum ({(0, 0)} : Finset (ℕ × ℕ)) 1 (1 + 2) 2 = 0 := by
    norm_num [rowsum, adjEntry, rEntry, Finset.sum_range_succ,
      Finset.sum_range_zero, Finset.mem_singleton, Prod.mk.injEq]
  exact ⟨hwf, h0, (isolated_node_no_nan _ 1 2 2 hwf).1,
    ((isolated_node_no_nan _ 1 2 2 hwf).2 h0 0).1⟩

/-- C7: with `num_layers = 0` the layer list holds only the layer-0 matrix,
the mean over that single layer is the identity, and splitting the
concatenation at row `num_users` recovers exactly the layer-0 user and item
tables. -/
theorem propagation_zero_layers_identity (m : ModelState) (u i d : ℕ)
    (h : m.num_layers = 0) (hu : u < m.num_users) :
    getEmbedding_user m u d = m.userW u d ∧
    getEmbedding_item m i d = m.itemW i d := by
  have hni : ¬ (m.num_users + i < m.num_users) := by omega
  constructor
  · unfold getEmbedding_user meanDim1 stackDim1
    rw [h, Finset.sum_range_one]
    simp [layerEmb, catEmb, hu]
  · unfold getEmbedding_item meanDim1 stackDim1
    rw [h, Finset.sum_range_one]
    simp [layerEmb, catEmb, hni, Nat.add_sub_cancel_left]

/-- Witness for `propagation_zero_layers_identity` on the concrete
zero-layer model. -/
theorem propagation_zero_layers_identity_witness :
    exModel.num_layers = 0 ∧ 0 < exModel.num_users ∧
      getEmbedding_user exModel 0 0 = exModel.userW 0 0 ∧
      getEmbedding_item exModel 0 0 = exModel.itemW 0 0 :=
  ⟨rfl, by norm_num [exModel],
    (propagation_zero_layers_identity exModel 0 0 0 rfl
      (by norm_num [exModel])).1,
    (propagation_zero_layers_identity exModel 0 0 0 rfl
      (by norm_num [exModel])).2⟩

/-- C10: the two propagation implementations agree — `getEmbedding` (stack
along dim 1, `torch.mean(·, dim=1)`) and `forward` (stack along dim 0,
`.mean(0)`) return the same user and item embeddings at every row and
coordinate: both reduce to the same per-layer average, so the training
objective (which calls `getEmbedding`) and the evaluator (which calls
`forward` via `model()`) score against identical final embeddings. -/
theorem forward_eq_getEmbedding (m : ModelState) (u i d : ℕ) :
    forward_user m u d = getEmbedding_user m u d ∧
    forward_item m i d = getEmbedding_item m i d := by
  constructor
  · unfold forward_user getEmbedding_user meanDim0 meanDim1 stackDim0 stackDim1
    rfl
  · unfold forward_item getEmbedding_item meanDim0 meanDim1 stackDim0 stackDim1
    rfl

/-- C3 counterexample: on an empty batch `bpr_loss` reaches the undefined
mean-over-empty / division-by-zero result; it does not raise any
`EmptyBatchError` (no such exception exists in the source). -/
theorem bpr_loss_no_emptyBatchError :
    bpr_loss (fun x => x) (1 / 10000) exModel [] [] [] =
      BprResult.nanDivZero ∧
    bpr_loss (fun x => x) (1 / 10000) exModel [] [] [] ≠
      BprResult.emptyBatchError := by
  have h : bpr_loss (fun x => x) (1 / 10000) exModel [] [] [] =
      BprResult.nanDivZero := rfl
  refine ⟨h, ?_⟩
  rw [h]
  exact fun hc => BprResult.noConfusion hc

/-- C3 amended: the source has no fail-fast path — an empty batch yields the
undefined `NaN`/division-by-zero outcome instead of an `EmptyBatchError`,
while every nonempty batch (in particular a batch of size 1) produces an
ordinary scalar loss value. -/
theorem bpr_loss_empty_nan_nonempty_value (sp : ℚ → ℚ) (lam : ℚ)
    (m : ModelState) (users pos_items neg_items : List ℕ) :
    (users = [] →
      bpr_loss sp lam m users pos_items neg_items = BprResult.nanDivZero) ∧
    (users ≠ [] →
      ∃ v, bpr_loss sp lam m users pos_items neg_items = BprResult.value v) := by
  constructor
  · intro h
    subst h
    rfl
  · intro h
    unfold bpr_loss
    rw [if_neg (fun h0 => h (List.length_eq_zero.mp h0))]
    exact ⟨_, rfl⟩

/-- Witness for `bpr_loss_empty_nan_nonempty_value`: the empty batch gives
the undefined outcome; the singleton batch gives a value. -/
theorem bpr_loss_empty_nan_nonempty_value_witness :
    bpr_loss (fun x => x + 1) (1 / 10000) exModel [] [] [] =
      BprResult.nanDivZero ∧
    ∃ v, bpr_loss (fun x => x + 1) (1 / 10000) exModel [0] [0] [0] =
      BprResult.value v :=
  ⟨(bpr_loss_empty_nan_nonempty_value (fun x => x + 1) (1 / 10000) exModel
      [] [] []).1 rfl,
   (bpr_loss_empty_nan_nonempty_value (fun x => x + 1) (1 / 10000) exModel
      [0] [0] [0]).2 (by simp)⟩

/-- C6: the candidate list scored for a user is exactly
`(all items below num_items, minus the user's training items) union the
user's ground-truth items`; consequently every ground-truth item is in the
candidate pool, even when it also appears among the training items (the set
difference removes only training positives, and the union puts every
ground-truth item back). -/
theorem candidates_keep_ground_truth (num_items : ℕ)
    (train_items gt_items : Finset ℕ) (c g : ℕ) :
    (c ∈ candidatesList num_items train_items gt_items ↔
      (c ∈ Finset.range num_items ∧ c ∉ train_items) ∨ c ∈ gt_items) ∧
    (g ∈ gt_items → g ∈ candidatesList num_items train_items gt_items) := by
  have hmem : ∀ x, x ∈ candidatesList num_items train_items gt_items ↔
      (x ∈ Finset.range num_items ∧ x ∉ train_items) ∨ x ∈ gt_items := by
    intro x
    rw [candidatesList, Finset.mem_sort, candidateSet, Finset.mem_union,
      Finset.mem_sdiff]
  exact ⟨hmem c, fun hg => (hmem g).mpr (Or.inr hg)⟩

/-- Witness for `candidates_keep_ground_truth`: item `1` is both a training
item and a ground-truth item of the user, and it is in the candidate list. -/
theorem candidates_keep_ground_truth_witness :
    (1 : ℕ) ∈ ({1} : Finset ℕ) ∧
      1 ∈ candidatesList 3 {1} {1} :=
  ⟨by decide,
    (candidates_keep_ground_truth 3 {1} {1} 0 1).2 (by decide)⟩

/-- C9: for a fixed model state, ground truth, interaction sets and `k`, the
aggregate recall/precision/NDCG triple of the evaluator does not depend on
the evaluation batch size: each user's metrics are a function of the user
alone, and the batches partition the user list in order, so any two positive
batch sizes give identical results. -/
theorem evaluate_model_batch_invariant (inp : EvalInput)
    (test_users : List ℕ) (b1 b2 : ℕ) (h1 : 0 < b1) (h2 : 0 < b2) :
    evaluate_model inp b1 test_users = evaluate_model inp b2 test_users := by
  unfold evaluate_model
  rw [allResults_eq inp b1 h1 test_users, allResults_eq inp b2 h2 test_users]

/-- Witness for `evaluate_model_batch_invariant`: two users evaluated with
batch sizes 1 and 2 on the concrete context. -/
theorem evaluate_model_batch_invariant_witness :
    0 < 1 ∧ 0 < 2 ∧
      evaluate_model exEval 1 [0, 1] = evaluate_model exEval 2 [0, 1] :=
  ⟨by norm_num, by norm_num,
    evaluate_model_batch_invariant exEval [0, 1] 1 2 (by norm_num)
      (by norm_num)⟩

end LightGCNSpec
